import Mathlib

/-!
Verification of the natural-language specification of the SIKE/SIDH P434
arithmetic and isogeny stack (liboqs, `src/kem/sike/external`).

The repository snapshot contains only the two header files
`internal.h` and `P434/P434_api.h`: every function body (multiprecision
arithmetic, Montgomery reduction, GF(p^2) arithmetic, curve/isogeny
formulas, key exchange, KEM wrapper) is absent.  Following the rules for
code missing from the sources, each layer is modelled from the
specification's words (and the contracts stated in the header comments),
and the claims are settled against those models.  Every definition whose
body is absent from the sources carries a doc comment starting
`Modelled from the spec:`.
-/

set_option maxHeartbeats 1000000
set_option exponentiation.threshold 1000
set_option maxRecDepth 8000

/-! ## The P434 prime and Montgomery constants -/

/-- The P434 prime `p = 2^216 * 3^137 - 1` (spec section 4.2: "the prime has
the form `2^e2 * 3^e3 - 1`"). -/
def p434 : ℕ := 2 ^ 216 * 3 ^ 137 - 1

/-- The Montgomery radix `R = 2^(nwords*bits) = 2^(7*64) = 2^448`
(spec section 3: `R = 2^(nwords·bits)`). -/
def mont_R : ℕ := 2 ^ 448

/-- A representative of `R⁻¹ mod p434`: since `p434 + 1 = 2^216 * 3^137`,
`2 * (2^215 * 3^137) ≡ 1 (mod p434)`, hence this value inverts `2^448`. -/
def mont_Rinv : ℕ := (2 ^ 215 * 3 ^ 137) ^ 448 % p434

/-- The Montgomery constant `R^2 mod p434`, used to convert into Montgomery
representation. -/
def mont_R2 : ℕ := (2 ^ 448 * 2 ^ 448) % p434

/-- Modelled from the spec: one word-level step of the Montgomery reduction
specialized to the P434 prime (`rdc_mont`'s body, in `fp_generic.c`, is
absent from `src/`).  Since `p434 ≡ -1 (mod 2^64)`, the Montgomery
per-word quotient constant `-p434⁻¹ mod 2^64` is `1`, so each step adds
`(c mod 2^64) * p434` and divides exactly by the word base `2^64`
(spec section 4.2: "the Montgomery reduction algorithm specialized to the
fixed prime's bit pattern ... enabling a fast reduction constant"). -/
def redc_step (c : ℕ) : ℕ := (c + c % 2 ^ 64 * p434) / 2 ^ 64

/-- Modelled from the spec: the word loop of Montgomery reduction, one
`redc_step` per digit of the single-width result. -/
def redc_loop : ℕ → ℕ → ℕ
  | 0, c => c
  | k + 1, c => redc_loop k (redc_step c)

/-- Modelled from the spec: `rdc_mont` (declared in `internal.h`, body absent
from `src/`), Montgomery reduction of a double-width value: seven word
steps followed by a final conditional subtraction normalizing the result
into `[0, p434)` (spec section 4.2). -/
def rdc_mont (a : ℕ) : ℕ :=
  if p434 ≤ redc_loop 7 a then redc_loop 7 a - p434 else redc_loop 7 a

/-- Modelled from the spec: `to_mont` (declared in `internal.h`, body absent
from `src/`): conversion to Montgomery representation, `a * R mod p434`,
computed as the Montgomery reduction of `a * (R^2 mod p)` (spec section
4.2: "`toMontgomery(a)` computes `a·R mod p`"). -/
def to_mont (a : ℕ) : ℕ := rdc_mont (a * mont_R2)

/-- Modelled from the spec: `from_mont` (declared in `internal.h`, body
absent from `src/`): conversion from Montgomery representation,
`ma * R⁻¹ mod p434`, computed as a Montgomery reduction (spec section 4.2:
"`fromMontgomery(a)` computes `a·R⁻¹ mod p`"). -/
def from_mont (ma : ℕ) : ℕ := rdc_mont ma

/-! ## Supporting lemmas for the Montgomery layer -/

theorem p434_pos : 0 < p434 := by decide

theorem p434_lt_R : p434 < 2 ^ 448 := by decide

theorem p434_succ : p434 + 1 = 2 ^ 216 * 3 ^ 137 := by decide

theorem base_dvd_p434_succ : (2 : ℕ) ^ 64 ∣ p434 + 1 :=
  ⟨2 ^ 152 * 3 ^ 137, by decide⟩

theorem redc_step_mul (c : ℕ) :
    redc_step c * 2 ^ 64 = c + c % 2 ^ 64 * p434 := by
  have hdvd : (2 : ℕ) ^ 64 ∣ c + c % 2 ^ 64 * p434 := by
    have h2 : (2 : ℕ) ^ 64 ∣ c % 2 ^ 64 * (p434 + 1) :=
      Dvd.dvd.mul_left base_dvd_p434_succ _
    have h3 : c + c % 2 ^ 64 * p434 ≡ 0 [MOD 2 ^ 64] := by
      calc c + c % 2 ^ 64 * p434
          ≡ c % 2 ^ 64 + c % 2 ^ 64 * p434 [MOD 2 ^ 64] :=
            Nat.ModEq.add_right _ (Nat.mod_modEq c (2 ^ 64)).symm
        _ = c % 2 ^ 64 * (p434 + 1) := by ring
        _ ≡ 0 [MOD 2 ^ 64] := Nat.modEq_zero_iff_dvd.2 h2
    exact Nat.modEq_zero_iff_dvd.1 h3
  exact Nat.div_mul_cancel hdvd

theorem redc_step_congr (c : ℕ) : redc_step c * 2 ^ 64 ≡ c [MOD p434] := by
  rw [redc_step_mul]
  have h : c % 2 ^ 64 * p434 ≡ 0 [MOD p434] :=
    Nat.modEq_zero_iff_dvd.2 (dvd_mul_left _ _)
  calc c + c % 2 ^ 64 * p434 ≡ c + 0 [MOD p434] := h.add_left c
    _ = c := by ring

theorem redc_step_lt (c m : ℕ) (h : c < m * 2 ^ 64 * p434 + p434) :
    redc_step c < m * p434 + p434 := by
  have hm2 : c % 2 ^ 64 < 2 ^ 64 := Nat.mod_lt _ (by decide)
  have h2 : (c % 2 ^ 64 + 1) * p434 ≤ 2 ^ 64 * p434 :=
    Nat.mul_le_mul_right _ (Nat.succ_le_of_lt hm2)
  have hnum : c + c % 2 ^ 64 * p434 < 2 ^ 64 * (m * p434 + p434) := by
    calc c + c % 2 ^ 64 * p434
        < m * 2 ^ 64 * p434 + p434 + c % 2 ^ 64 * p434 :=
          Nat.add_lt_add_right h _
      _ = m * 2 ^ 64 * p434 + (c % 2 ^ 64 + 1) * p434 := by ring
      _ ≤ m * 2 ^ 64 * p434 + 2 ^ 64 * p434 := Nat.add_le_add_left h2 _
      _ = 2 ^ 64 * (m * p434 + p434) := by ring
  exact Nat.div_lt_of_lt_mul hnum

theorem redc_loop_congr (k : ℕ) :
    ∀ c, redc_loop k c * (2 ^ 64) ^ k ≡ c [MOD p434] := by
  induction k with
  | zero => intro c; simpa [redc_loop] using Nat.ModEq.refl c
  | succ k ih =>
    intro c
    have step : redc_loop (k + 1) c = redc_loop k (redc_step c) := rfl
    calc redc_loop (k + 1) c * (2 ^ 64) ^ (k + 1)
        = redc_loop k (redc_step c) * (2 ^ 64) ^ k * 2 ^ 64 := by
          rw [step, pow_succ]; ring
      _ ≡ redc_step c * 2 ^ 64 [MOD p434] := (ih (redc_step c)).mul_right _
      _ ≡ c [MOD p434] := redc_step_congr c

theorem redc_loop_lt (k : ℕ) :
    ∀ c, c < (2 ^ 64) ^ k * p434 + p434 → redc_loop k c < p434 + p434 := by
  induction k with
  | zero => intro c h; simpa [redc_loop] using h
  | succ k ih =>
    intro c h
    have h2 : c < (2 ^ 64) ^ k * 2 ^ 64 * p434 + p434 := by
      have : (2 ^ 64 : ℕ) ^ (k + 1) = (2 ^ 64) ^ k * 2 ^ 64 := pow_succ _ _
      rwa [this] at h
    exact ih _ (redc_step_lt c ((2 ^ 64) ^ k) h2)

theorem pow64_7 : ((2 : ℕ) ^ 64) ^ 7 = 2 ^ 448 := by decide

theorem rdc_mont_lt (a : ℕ) (h : a < 2 ^ 448 * p434) : rdc_mont a < p434 := by
  have ht : redc_loop 7 a < p434 + p434 := by
    apply redc_loop_lt 7 a
    rw [pow64_7]
    exact lt_of_lt_of_le h (Nat.le_add_right _ _)
  unfold rdc_mont
  split <;> omega

theorem rdc_mont_congr (a : ℕ) : rdc_mont a * 2 ^ 448 ≡ a [MOD p434] := by
  have h := redc_loop_congr 7 a
  rw [pow64_7] at h
  unfold rdc_mont
  split
  · rename_i hle
    have hsub : redc_loop 7 a - p434 ≡ redc_loop 7 a [MOD p434] :=
      (Nat.mod_eq_sub_mod hle).symm
    exact (hsub.mul_right _).trans h
  · exact h

theorem mont_RRinv : 2 ^ 448 * mont_Rinv ≡ 1 [MOD p434] := by
  have h1 : 2 ^ 448 * mont_Rinv ≡ 2 ^ 448 * (2 ^ 215 * 3 ^ 137) ^ 448 [MOD p434] :=
    (Nat.mod_modEq _ _).mul_left _
  have h2 : (2 : ℕ) ^ 448 * (2 ^ 215 * 3 ^ 137) ^ 448 = (p434 + 1) ^ 448 := by
    rw [p434_succ, ← mul_pow]
    norm_num
  have h3 : (p434 + 1 : ℕ) ≡ 0 + 1 [MOD p434] :=
    Nat.ModEq.add_right 1 (Nat.modEq_zero_iff_dvd.2 dvd_rfl)
  have h4 : ((p434 + 1) : ℕ) ^ 448 ≡ 1 [MOD p434] := by
    have := h3.pow 448
    simpa using this
  calc 2 ^ 448 * mont_Rinv
      ≡ 2 ^ 448 * (2 ^ 215 * 3 ^ 137) ^ 448 [MOD p434] := h1
    _ = (p434 + 1) ^ 448 := h2
    _ ≡ 1 [MOD p434] := h4

theorem rdc_mont_spec (a : ℕ) (h : a < 2 ^ 448 * p434) :
    rdc_mont a = a * mont_Rinv % p434 := by
  have hc : rdc_mont a ≡ a * mont_Rinv [MOD p434] := by
    calc rdc_mont a
        = rdc_mont a * 1 := by ring
      _ ≡ rdc_mont a * (2 ^ 448 * mont_Rinv) [MOD p434] :=
          (mont_RRinv.mul_left _).symm
      _ = rdc_mont a * 2 ^ 448 * mont_Rinv := by ring
      _ ≡ a * mont_Rinv [MOD p434] := (rdc_mont_congr a).mul_right _
  have hl := rdc_mont_lt a h
  calc rdc_mont a = rdc_mont a % p434 := (Nat.mod_eq_of_lt hl).symm
    _ = a * mont_Rinv % p434 := hc

theorem mont_R2_lt : mont_R2 < p434 := Nat.mod_lt _ p434_pos

theorem to_mont_dom (a : ℕ) (h : a < p434) : a * mont_R2 < 2 ^ 448 * p434 := by
  have h1 : a < 2 ^ 448 := h.trans p434_lt_R
  calc a * mont_R2 ≤ a * p434 := Nat.mul_le_mul_left a mont_R2_lt.le
    _ < 2 ^ 448 * p434 := (mul_lt_mul_right p434_pos).2 h1

theorem single_width_dom (a : ℕ) (h : a < p434) : a < 2 ^ 448 * p434 := by
  have h1 : p434 ≤ 2 ^ 448 * p434 := Nat.le_mul_of_pos_left _ (by decide)
  exact lt_of_lt_of_le h h1

/-! ## Claim theorems for the Montgomery layer (C3, C4, C5) -/

/-- Claim C4: for every double-width input `a` in the range accepted by
Montgomery reduction (`a < R * p434` with `R = 2^448`), `rdc_mont a`
returns the single-width value `a * R⁻¹ mod p434` — the Montgomery
reduction of `a` — not `a mod p434` as the header comment says. -/
theorem rdc_mont_computes_montgomery_reduction (a : ℕ)
    (h : a < 2 ^ 448 * p434) : rdc_mont a = a * mont_Rinv % p434 :=
  rdc_mont_spec a h

theorem rdc_mont_computes_montgomery_reduction_witness :
    (12345 : ℕ) < 2 ^ 448 * p434 ∧
      rdc_mont 12345 = 12345 * mont_Rinv % p434 :=
  ⟨by decide, rdc_mont_computes_montgomery_reduction 12345 (by decide)⟩

/-- Claim C3: for every field element `a` in standard form with
`0 ≤ a < p434`, converting to Montgomery representation and back is the
identity: `from_mont (to_mont a) = a`. -/
theorem from_mont_to_mont_id (a : ℕ) (h : a < p434) :
    from_mont (to_mont a) = a := by
  have hdom1 : a * mont_R2 < 2 ^ 448 * p434 := to_mont_dom a h
  have ht : to_mont a = a * mont_R2 * mont_Rinv % p434 := rdc_mont_spec _ hdom1
  have hdom2 : to_mont a < 2 ^ 448 * p434 :=
    single_width_dom _ (by rw [to_mont] ; exact rdc_mont_lt _ hdom1)
  have hs : from_mont (to_mont a) = to_mont a * mont_Rinv % p434 :=
    rdc_mont_spec _ hdom2
  rw [hs, ht, Nat.mod_mul_mod]
  have hme : a * mont_R2 * mont_Rinv * mont_Rinv ≡ a [MOD p434] := by
    calc a * mont_R2 * mont_Rinv * mont_Rinv
        ≡ a * (2 ^ 448 * 2 ^ 448) * mont_Rinv * mont_Rinv [MOD p434] :=
          (((Nat.mod_modEq _ _).mul_left a).mul_right _).mul_right _
      _ = a * ((2 ^ 448 * mont_Rinv) * (2 ^ 448 * mont_Rinv)) := by ring
      _ ≡ a * (1 * 1) [MOD p434] := (mont_RRinv.mul mont_RRinv).mul_left a
      _ = a := by ring
  rw [show a * mont_R2 * mont_Rinv * mont_Rinv % p434 = a % p434 from hme,
    Nat.mod_eq_of_lt h]

theorem from_mont_to_mont_id_witness :
    (42 : ℕ) < p434 ∧ from_mont (to_mont 42) = 42 :=
  ⟨by decide, from_mont_to_mont_id 42 (by decide)⟩

/-- Claim C5: every output of the modular-layer operations `rdc_mont`,
`to_mont` and `from_mont` is normalized into `[0, p434)` for all valid
inputs (double-width Montgomery domain for `rdc_mont`, a standard-form
field element for `to_mont`, a stored single-width field element for
`from_mont`); the normalization is performed by the final conditional
subtraction in `rdc_mont`. -/
theorem modular_outputs_normalized (x : ℕ) :
    (x < 2 ^ 448 * p434 → rdc_mont x < p434) ∧
      (x < p434 → to_mont x < p434) ∧ (x < p434 → from_mont x < p434) := by
  refine ⟨fun h => rdc_mont_lt x h, fun h => ?_, fun h => ?_⟩
  · exact rdc_mont_lt _ (to_mont_dom x h)
  · exact rdc_mont_lt _ (single_width_dom x h)

theorem modular_outputs_normalized_witness :
    ((3 : ℕ) < 2 ^ 448 * p434 ∧ rdc_mont 3 < p434) ∧
      ((3 : ℕ) < p434 ∧ to_mont 3 < p434) ∧
      ((3 : ℕ) < p434 ∧ from_mont 3 < p434) :=
  ⟨⟨by decide, (modular_outputs_normalized 3).1 (by decide)⟩,
    ⟨by decide, (modular_outputs_normalized 3).2.1 (by decide)⟩,
    ⟨by decide, (modular_outputs_normalized 3).2.2 (by decide)⟩⟩

/-! ## The quadratic extension field GF(p434^2) -/

/-- A field element of GF(p434), spec section 3. -/
abbrev felm_t : Type := ZMod p434

/-- A GF(p434^2) element `c0 + c1*i` with `i^2 = -1` (spec section 3:
"a pair `(a, b)` representing `a + b·i` where `i² = -1`"); the type is
named after the source's `f2elm_t`. -/
@[ext] structure f2elm_t : Type where
  c0 : felm_t
  c1 : felm_t

/-- Modelled from the spec: componentwise GF(p^2) addition (`fpx.c` is
absent from `src/`; spec section 4.3: "addition/subtraction are
componentwise"). -/
def fp2add (x y : f2elm_t) : f2elm_t := ⟨x.c0 + y.c0, x.c1 + y.c1⟩

/-- Modelled from the spec: componentwise GF(p^2) subtraction. -/
def fp2sub (x y : f2elm_t) : f2elm_t := ⟨x.c0 - y.c0, x.c1 - y.c1⟩

/-- Modelled from the spec: GF(p^2) negation. -/
def fp2neg (x : f2elm_t) : f2elm_t := ⟨-x.c0, -x.c1⟩

/-- Modelled from the spec: GF(p^2) multiplication with `i^2 = -1`,
`(a+bi)(c+di) = (ac - bd) + (ad + bc) i` (spec section 4.3). -/
def fp2mul_mont (x y : f2elm_t) : f2elm_t :=
  ⟨x.c0 * y.c0 - x.c1 * y.c1, x.c0 * y.c1 + x.c1 * y.c0⟩

/-- Modelled from the spec: GF(p^2) squaring. -/
def fp2sqr_mont (x : f2elm_t) : f2elm_t := fp2mul_mont x x

/-- The zero element of GF(p^2): `Z = 0` marks the point at infinity
(spec section 3). -/
def fp2zero : f2elm_t := ⟨0, 0⟩

/-- A projective Kummer-line point `(X : Z)` with GF(p^2) coordinates,
named after the source's `point_proj_t` (spec section 3: "Projective point
(X:Z)"). -/
@[ext] structure point_proj : Type where
  X : f2elm_t
  Z : f2elm_t

/-! ## Curve and isogeny layer -/

/-- Modelled from the spec: `xDBL` (declared in `internal.h`, body in the
absent `ec_isogeny.c`): projective Montgomery doubling with curve
constants `(A24plus : C24) = (A+2C : 4C)`, the standard branch-free
doubling formula (spec section 4.4: "doubles a projective x-only point;
pure formula, no branches"). -/
def xDBL (P : point_proj) (A24plus C24 : f2elm_t) : point_proj :=
  ⟨fp2mul_mont C24 (fp2mul_mont (fp2sqr_mont (fp2sub P.X P.Z))
      (fp2sqr_mont (fp2add P.X P.Z))),
   fp2mul_mont (fp2sub (fp2sqr_mont (fp2add P.X P.Z)) (fp2sqr_mont (fp2sub P.X P.Z)))
     (fp2add (fp2mul_mont C24 (fp2sqr_mont (fp2sub P.X P.Z)))
       (fp2mul_mont A24plus
         (fp2sub (fp2sqr_mont (fp2add P.X P.Z)) (fp2sqr_mont (fp2sub P.X P.Z)))))⟩

/-- Modelled from the spec: the loop body of `xDBLe`, which repeatedly
overwrites the working point with its double, once per iteration. -/
def xDBLe_loop (A24plus C24 : f2elm_t) : ℕ → point_proj → point_proj
  | 0, Q => Q
  | e + 1, Q => xDBLe_loop A24plus C24 e (xDBL Q A24plus C24)

/-- Modelled from the spec: `xDBLe` (declared in `internal.h`), computing
`[2^e](X:Z)` "via e repeated doublings" (comment in `internal.h` and spec
section 4.4). -/
def xDBLe (P : point_proj) (A24plus C24 : f2elm_t) (e : ℕ) : point_proj :=
  xDBLe_loop A24plus C24 e P

/-- Modelled from the spec: `xTPL` (declared in `internal.h`, body absent):
projective Montgomery tripling with constants
`(A24minus : A24plus) = (A-2C : A+2C)`, modelled as a doubling (with
`C24 = A24plus - A24minus = 4C`) followed by the differential addition of
`2P` and `P` with difference `P` (spec sections 4.4: `xTPL`/`xADD`). -/
def xTPL (P : point_proj) (A24minus A24plus : f2elm_t) : point_proj :=
  ⟨fp2mul_mont P.Z
      (fp2sqr_mont (fp2add
        (fp2mul_mont (fp2sub (xDBL P A24plus (fp2sub A24plus A24minus)).X
            (xDBL P A24plus (fp2sub A24plus A24minus)).Z) (fp2add P.X P.Z))
        (fp2mul_mont (fp2add (xDBL P A24plus (fp2sub A24plus A24minus)).X
            (xDBL P A24plus (fp2sub A24plus A24minus)).Z) (fp2sub P.X P.Z)))),
   fp2mul_mont P.X
      (fp2sqr_mont (fp2sub
        (fp2mul_mont (fp2sub (xDBL P A24plus (fp2sub A24plus A24minus)).X
            (xDBL P A24plus (fp2sub A24plus A24minus)).Z) (fp2add P.X P.Z))
        (fp2mul_mont (fp2add (xDBL P A24plus (fp2sub A24plus A24minus)).X
            (xDBL P A24plus (fp2sub A24plus A24minus)).Z) (fp2sub P.X P.Z))))⟩

/-- Modelled from the spec: the loop body of `xTPLe`. -/
def xTPLe_loop (A24minus A24plus : f2elm_t) : ℕ → point_proj → point_proj
  | 0, Q => Q
  | e + 1, Q => xTPLe_loop A24minus A24plus e (xTPL Q A24minus A24plus)

/-- Modelled from the spec: `xTPLe` (declared in `internal.h`), computing
`[3^e](X:Z)` "via e repeated triplings". -/
def xTPLe (P : point_proj) (A24minus A24plus : f2elm_t) (e : ℕ) : point_proj :=
  xTPLe_loop A24minus A24plus e P

/-- Modelled from the spec: `get_4_isog` (declared in `internal.h`, body
absent): given a projective point of order 4, returns the codomain
constants `(A24plus, C24) = (4*X4^4, 4*Z4^4)` and the isogeny
coefficients consumed by `eval_4_isog` (spec section 4.4: "derives the
codomain curve constants and isogeny coefficients for a degree-4 isogeny
with that point's subgroup as kernel"). -/
def get_4_isog (P : point_proj) :
    f2elm_t × f2elm_t × (f2elm_t × f2elm_t × f2elm_t) :=
  (fp2sqr_mont (fp2add (fp2sqr_mont P.X) (fp2sqr_mont P.X)),
   fp2sqr_mont (fp2add (fp2sqr_mont P.Z) (fp2sqr_mont P.Z)),
   (P.X, P.Z, fp2add (fp2sqr_mont P.X) (fp2sqr_mont P.Z)))

/-- Modelled from the spec: `eval_4_isog` (declared in `internal.h`, body
absent): pushes a point `(X : Z)` through the degree-4 isogeny described
by `coeff = (X4, Z4, X4^2 + Z4^2)`, using the projective degree-4
Montgomery x-line isogeny map
`X' = X * (2*X4*Z4*Z - X*(X4^2+Z4^2)) * (X4*X - Z4*Z)^2`,
`Z' = Z * (2*X4*Z4*X - Z*(X4^2+Z4^2)) * (Z4*X - X4*Z)^2`
(spec section 4.4: "pushes an independent point Q through the isogeny
described by coeff"). -/
def eval_4_isog (P : point_proj) (coeff : f2elm_t × f2elm_t × f2elm_t) :
    point_proj :=
  ⟨fp2mul_mont (fp2mul_mont P.X
      (fp2sub (fp2mul_mont (fp2add (fp2mul_mont coeff.1 coeff.2.1)
          (fp2mul_mont coeff.1 coeff.2.1)) P.Z)
        (fp2mul_mont P.X coeff.2.2)))
     (fp2sqr_mont (fp2sub (fp2mul_mont coeff.1 P.X) (fp2mul_mont coeff.2.1 P.Z))),
   fp2mul_mont (fp2mul_mont P.Z
      (fp2sub (fp2mul_mont (fp2add (fp2mul_mont coeff.1 coeff.2.1)
          (fp2mul_mont coeff.1 coeff.2.1)) P.X)
        (fp2mul_mont P.Z coeff.2.2)))
     (fp2sqr_mont (fp2sub (fp2mul_mont coeff.2.1 P.X) (fp2mul_mont coeff.1 P.Z)))⟩

/-- Modelled from the spec: `get_3_isog` (declared in `internal.h`, body
absent): given a projective point of order 3, returns the codomain
constants `A24minus' = -(3*X3 - Z3)^3 * (X3 + Z3)` and
`A24plus' = (3*X3 + Z3)^3 * (Z3 - X3)` (the projective form of the
classical degree-3 codomain `A' = (1 + 18*x3^2 - 27*x3^4)/(4*x3)`) and the
coefficients `(X3 - Z3, X3 + Z3)` consumed by `eval_3_isog`
(spec section 4.4). -/
def get_3_isog (P : point_proj) :
    f2elm_t × f2elm_t × (f2elm_t × f2elm_t) :=
  (fp2neg (fp2mul_mont
      (fp2mul_mont (fp2sqr_mont (fp2sub (fp2add (fp2add P.X P.X) P.X) P.Z))
        (fp2sub (fp2add (fp2add P.X P.X) P.X) P.Z))
      (fp2add P.X P.Z)),
   fp2mul_mont
      (fp2mul_mont (fp2sqr_mont (fp2add (fp2add (fp2add P.X P.X) P.X) P.Z))
        (fp2add (fp2add (fp2add P.X P.X) P.X) P.Z))
      (fp2sub P.Z P.X),
   (fp2sub P.X P.Z, fp2add P.X P.Z))

/-- Modelled from the spec: `eval_3_isog` (declared in `internal.h`, body
absent): pushes a point `(X : Z)` through the degree-3 isogeny described
by `coeff = (X3 - Z3, X3 + Z3)`, via the projective degree-3 Montgomery
x-line isogeny map
`X' = X * (coeff0*(X+Z) + coeff1*(X-Z))^2`,
`Z' = Z * (coeff1*(X-Z) - coeff0*(X+Z))^2`
(equivalently `X' = 4X*(X*X3 - Z*Z3)^2`, `Z' = 4Z*(X*Z3 - Z*X3)^2`). -/
def eval_3_isog (Q : point_proj) (coeff : f2elm_t × f2elm_t) : point_proj :=
  ⟨fp2mul_mont Q.X
      (fp2sqr_mont (fp2add (fp2mul_mont coeff.1 (fp2add Q.X Q.Z))
        (fp2mul_mont coeff.2 (fp2sub Q.X Q.Z)))),
   fp2mul_mont Q.Z
      (fp2sqr_mont (fp2sub (fp2mul_mont coeff.2 (fp2sub Q.X Q.Z))
        (fp2mul_mont coeff.1 (fp2add Q.X Q.Z))))⟩

/-! ## Claim theorems for the isogeny layer (C2, C6) -/

/-- Claim C2: for every projective Montgomery point `P` (in particular one
of exact order 4, resp. 3), evaluating `eval_4_isog` (resp. `eval_3_isog`)
on `P` itself with the coefficient array produced by `get_4_isog P`
(resp. `get_3_isog P`) yields a point with `Z = 0`, the point at infinity
of the codomain: the kernel is annihilated. -/
theorem eval_isog_annihilates_kernel (P : point_proj) :
    (eval_4_isog P (get_4_isog P).2.2).Z = fp2zero ∧
      (eval_3_isog P (get_3_isog P).2.2).Z = fp2zero := by
  obtain ⟨⟨x0, x1⟩, ⟨z0, z1⟩⟩ := P
  constructor
  · simp only [eval_4_isog, get_4_isog, fp2mul_mont, fp2sqr_mont, fp2add,
      fp2sub, fp2zero, f2elm_t.mk.injEq]
    constructor <;> ring
  · simp only [eval_3_isog, get_3_isog, fp2mul_mont, fp2sqr_mont, fp2add,
      fp2sub, fp2zero, f2elm_t.mk.injEq]
    constructor <;> ring

theorem xDBLe_loop_iterate (A24plus C24 : f2elm_t) :
    ∀ (e : ℕ) (Q : point_proj),
      xDBLe_loop A24plus C24 e Q = (fun R => xDBL R A24plus C24)^[e] Q := by
  intro e
  induction e with
  | zero => intro Q; rfl
  | succ e ih =>
    intro Q
    calc xDBLe_loop A24plus C24 (e + 1) Q
        = xDBLe_loop A24plus C24 e (xDBL Q A24plus C24) := rfl
      _ = (fun R => xDBL R A24plus C24)^[e] (xDBL Q A24plus C24) := ih _
      _ = (fun R => xDBL R A24plus C24)^[e + 1] Q :=
          (Function.iterate_succ_apply _ _ _).symm

theorem xTPLe_loop_iterate (A24minus A24plus : f2elm_t) :
    ∀ (e : ℕ) (Q : point_proj),
      xTPLe_loop A24minus A24plus e Q = (fun R => xTPL R A24minus A24plus)^[e] Q := by
  intro e
  induction e with
  | zero => intro Q; rfl
  | succ e ih =>
    intro Q
    calc xTPLe_loop A24minus A24plus (e + 1) Q
        = xTPLe_loop A24minus A24plus e (xTPL Q A24minus A24plus) := rfl
      _ = (fun R => xTPL R A24minus A24plus)^[e] (xTPL Q A24minus A24plus) := ih _
      _ = (fun R => xTPL R A24minus A24plus)^[e + 1] Q :=
          (Function.iterate_succ_apply _ _ _).symm

/-- Claim C6: for every projective point `P`, curve constants, and every
step count `e ≥ 0`, `xDBLe P A24plus C24 e` equals `e` sequential
applications of `xDBL` to `P`, and `xTPLe P A24minus A24plus e` equals
`e` sequential applications of `xTPL` to `P`. -/
theorem xDBLe_xTPLe_iterate (P : point_proj)
    (A24plus C24 A24minus : f2elm_t) (e : ℕ) :
    xDBLe P A24plus C24 e = (fun Q => xDBL Q A24plus C24)^[e] P ∧
      xTPLe P A24minus A24plus e = (fun Q => xTPL Q A24minus A24plus)^[e] P :=
  ⟨xDBLe_loop_iterate A24plus C24 e P, xTPLe_loop_iterate A24minus A24plus e P⟩

/-! ## Constant-time byte comparison (C7) -/

/-- Modelled from the spec: the three-way comparison of a single byte pair,
the per-byte contribution to `ct_compare` (spec section 4.1:
"`compareConstantTime(a,b) -> {-1,0,1}`"). -/
def cmp_byte (x y : ℕ) : Int := if x < y then -1 else if y < x then 1 else 0

/-- Modelled from the spec: the accumulator update of `ct_compare`: the
first nonzero byte comparison is retained, later bytes leave it
unchanged.  The whole buffer is always traversed (no early exit),
mirroring the constant-time discipline of spec section 4.1. -/
def ct_step (r : Int) (q : ℕ × ℕ) : Int := if r = 0 then cmp_byte q.1 q.2 else r

/-- Modelled from the spec: `ct_compare` (declared in `internal.h`, body
absent from `src/`): constant-time three-way comparison of two byte
arrays of the same length, folding `ct_step` over all byte pairs. -/
def ct_compare (a b : List ℕ) : Int := (a.zip b).foldl ct_step 0

theorem ct_step_foldl_ne (l : List (ℕ × ℕ)) :
    ∀ r : Int, r ≠ 0 → l.foldl ct_step r = r := by
  induction l with
  | nil => intro r _; rfl
  | cons q l ih =>
    intro r hr
    have hstep : ct_step r q = r := if_neg hr
    calc (q :: l).foldl ct_step r = l.foldl ct_step (ct_step r q) := rfl
      _ = l.foldl ct_step r := by rw [hstep]
      _ = r := ih r hr

theorem cmp_byte_range (x y : ℕ) :
    cmp_byte x y = -1 ∨ cmp_byte x y = 0 ∨ cmp_byte x y = 1 := by
  unfold cmp_byte
  split
  · exact Or.inl rfl
  split
  · exact Or.inr (Or.inr rfl)
  · exact Or.inr (Or.inl rfl)

theorem cmp_byte_eq_zero_iff (x y : ℕ) : cmp_byte x y = 0 ↔ x = y := by
  unfold cmp_byte
  split
  · rename_i h; constructor
    · intro hc; exact absurd hc (by decide)
    · intro hxy; omega
  split
  · rename_i h; constructor
    · intro hc; exact absurd hc (by decide)
    · intro hxy; omega
  · rename_i h1 h2; constructor
    · intro _; omega
    · intro _; rfl

theorem ct_step_foldl_range (l : List (ℕ × ℕ)) :
    ∀ r : Int, (r = -1 ∨ r = 0 ∨ r = 1) →
      (l.foldl ct_step r = -1 ∨ l.foldl ct_step r = 0 ∨ l.foldl ct_step r = 1) := by
  induction l with
  | nil => intro r hr; exact hr
  | cons q l ih =>
    intro r hr
    apply ih
    unfold ct_step
    split
    · exact cmp_byte_range q.1 q.2
    · exact hr

theorem ct_compare_zero_iff :
    ∀ (a b : List ℕ), a.length = b.length → (ct_compare a b = 0 ↔ a = b) := by
  intro a
  induction a with
  | nil =>
    intro b h
    cases b with
    | nil => simp [ct_compare]
    | cons y b => simp at h
  | cons x a ih =>
    intro b h
    cases b with
    | nil => simp at h
    | cons y b =>
      have hlen : a.length = b.length := by simpa using h
      have hstart : ct_compare (x :: a) (y :: b)
          = (a.zip b).foldl ct_step (cmp_byte x y) := by
        simp [ct_compare, ct_step, List.zip]
      by_cases hxy : x = y
      · subst hxy
        have h0 : cmp_byte x x = 0 := (cmp_byte_eq_zero_iff x x).2 rfl
        rw [hstart, h0]
        have : (a.zip b).foldl ct_step 0 = ct_compare a b := rfl
        rw [this]
        constructor
        · intro hz; rw [(ih b hlen).1 hz]
        · intro he
          have : a = b := by injection he
          exact (ih b hlen).2 this
      · have h0 : cmp_byte x y ≠ 0 := fun hc => hxy ((cmp_byte_eq_zero_iff x y).1 hc)
        rw [hstart, ct_step_foldl_ne _ _ h0]
        constructor
        · intro hz; exact absurd hz h0
        · intro he; injection he with h1 _; exact absurd h1 hxy

/-- Claim C7: for every pair of byte arrays `a` and `b` of the same length,
`ct_compare a b` returns a value in `{-1, 0, 1}`, and returns `0` exactly
when `a` and `b` are equal byte strings. -/
theorem ct_compare_spec (a b : List ℕ) (h : a.length = b.length) :
    (ct_compare a b = -1 ∨ ct_compare a b = 0 ∨ ct_compare a b = 1) ∧
      (ct_compare a b = 0 ↔ a = b) :=
  ⟨ct_step_foldl_range _ 0 (Or.inr (Or.inl rfl)), ct_compare_zero_iff a b h⟩

theorem ct_compare_spec_witness :
    ([1, 2] : List ℕ).length = ([1, 3] : List ℕ).length ∧
      ((ct_compare [1, 2] [1, 3] = -1 ∨ ct_compare [1, 2] [1, 3] = 0 ∨
          ct_compare [1, 2] [1, 3] = 1) ∧
        (ct_compare [1, 2] [1, 3] = 0 ↔ ([1, 2] : List ℕ) = [1, 3])) :=
  ⟨rfl, ct_compare_spec [1, 2] [1, 3] rfl⟩

/-! ## Double-width subtraction with modulus correction (C9) -/

/-- Modelled from the spec: `mp_subaddx2_asm` (declared in `internal.h`,
body absent from `src/`), following the contract stated in its header
comment: "2x434-bit multiprecision subtraction followed by addition with
p434*2^448, c = a-b+(p434*2^448) if a-b < 0, otherwise c = a-b". -/
def mp_subaddx2_asm (a b : ℤ) : ℤ :=
  if b ≤ a then a - b else a - b + (p434 : ℤ) * 2 ^ 448

theorem pow868_le : (2 : ℤ) ^ 868 ≤ (p434 : ℤ) * 2 ^ 448 := by
  have hn : (2 : ℕ) ^ 868 ≤ p434 * 2 ^ 448 := by decide
  exact_mod_cast hn

/-- Claim C9: for all 2x434-bit multiprecision operands `a` and `b`
(nonnegative values below `2^868`), `mp_subaddx2_asm a b` yields `a - b`
when `a ≥ b` and `a - b + p434*2^448` when `a - b < 0`; in particular the
result is always nonnegative and congruent to `a - b` modulo
`p434*2^448`. -/
theorem mp_subaddx2_asm_spec (a b : ℤ) (ha : 0 ≤ a) (hb : b < 2 ^ 868) :
    (b ≤ a → mp_subaddx2_asm a b = a - b) ∧
      0 ≤ mp_subaddx2_asm a b ∧
      mp_subaddx2_asm a b ≡ a - b [ZMOD (p434 : ℤ) * 2 ^ 448] := by
  unfold mp_subaddx2_asm
  split
  · rename_i hba
    exact ⟨fun _ => rfl, by omega, Int.ModEq.refl _⟩
  · rename_i hba
    refine ⟨fun hc => absurd hc hba, ?_, ?_⟩
    · have h1 : (2 : ℤ) ^ 868 ≤ (p434 : ℤ) * 2 ^ 448 := pow868_le
      omega
    · have hd : ((p434 : ℤ) * 2 ^ 448) ∣ (a - b + (p434 : ℤ) * 2 ^ 448) - (a - b) := by
        have he : (a - b + (p434 : ℤ) * 2 ^ 448) - (a - b) = (p434 : ℤ) * 2 ^ 448 := by
          ring
        rw [he]
      exact Int.ModEq.symm (Int.modEq_iff_dvd.2 hd)

theorem mp_subaddx2_asm_spec_witness :
    (0 : ℤ) ≤ 5 ∧ (7 : ℤ) < 2 ^ 868 ∧
      ((7 : ℤ) ≤ 5 → mp_subaddx2_asm 5 7 = 5 - 7) ∧
      0 ≤ mp_subaddx2_asm 5 7 ∧
      mp_subaddx2_asm 5 7 ≡ 5 - 7 [ZMOD (p434 : ℤ) * 2 ^ 448] :=
  ⟨by norm_num, by norm_num,
    (mp_subaddx2_asm_spec 5 7 (by norm_num) (by norm_num)).1,
    (mp_subaddx2_asm_spec 5 7 (by norm_num) (by norm_num)).2.1,
    (mp_subaddx2_asm_spec 5 7 (by norm_num) (by norm_num)).2.2⟩

/-! ## KEM decapsulation contract (C10) -/

/-- Modelled from the spec: the shared-secret derivation inside
decapsulation.  `sike.c` (the FO wrapper) is absent from `src/` and the
spec (section 1) scopes the KEM wrapper out as an external collaborator;
the hash is therefore abstracted as a fixed deterministic 16-byte
combination of the secret key's leading 16 bytes (the random value `s`
used for implicit rejection, per the layout comment in `P434_api.h`) and
the ciphertext. -/
def sike_derive_ss (sk ct : List ℕ) : List ℕ :=
  List.zipWith (fun x y => (x + y) % 256) (sk.take 16) (ct.take 16)

/-- Modelled from the spec: `OQS_KEM_sike_p434_keypair` (declared in
`P434_api.h`, body absent from `src/`): produces a 374-byte secret key
laid out as 16-byte `s` value, 28-byte private scalar and 330-byte public
key (per the wire-format comment in `P434_api.h`), and the 330-byte
public key. -/
def OQS_KEM_sike_p434_keypair (randomness : List ℕ) :
    List ℕ × List ℕ :=
  ((((randomness.map (· % 256)) ++ List.replicate 374 0).take 374).drop 44,
   ((randomness.map (· % 256)) ++ List.replicate 374 0).take 374)

/-- Modelled from the spec: `OQS_KEM_sike_p434_decaps` (declared in
`P434_api.h`, body absent from `src/`): consumes a 374-byte secret key
and a 346-byte ciphertext and always succeeds (status 0) with a 16-byte
shared secret; invalid ciphertexts are implicitly rejected inside the
derivation, never through the return value (spec section 7: malformed
inputs are not a reported error; the only checked condition is a
byte-buffer length mismatch). -/
def OQS_KEM_sike_p434_decaps (sk ct : List ℕ) : Option (Int × List ℕ) :=
  if sk.length = 374 ∧ ct.length = 346 then some (0, sike_derive_ss sk ct)
  else none

theorem keypair_sk_length (randomness : List ℕ) :
    (OQS_KEM_sike_p434_keypair randomness).2.length = 374 := by
  simp only [OQS_KEM_sike_p434_keypair, List.length_take, List.length_append,
    List.length_replicate, List.length_map]
  omega

/-- Claim C10: for every 346-byte ciphertext buffer (well-formed or not)
and every secret key produced by `OQS_KEM_sike_p434_keypair`,
`OQS_KEM_sike_p434_decaps` returns success (status 0) and writes a
16-byte shared secret; an invalid ciphertext is never signalled through
the return value. -/
theorem decaps_always_succeeds (randomness ct : List ℕ)
    (hct : ct.length = 346) :
    OQS_KEM_sike_p434_decaps (OQS_KEM_sike_p434_keypair randomness).2 ct
        = some (0, sike_derive_ss (OQS_KEM_sike_p434_keypair randomness).2 ct) ∧
      (sike_derive_ss (OQS_KEM_sike_p434_keypair randomness).2 ct).length = 16 := by
  have hsk := keypair_sk_length randomness
  constructor
  · unfold OQS_KEM_sike_p434_decaps
    rw [if_pos ⟨hsk, hct⟩]
  · simp [sike_derive_ss, hsk, hct]

theorem decaps_always_succeeds_witness :
    (List.replicate 346 0 : List ℕ).length = 346 ∧
      (OQS_KEM_sike_p434_decaps
          (OQS_KEM_sike_p434_keypair []).2 (List.replicate 346 0)
        = some (0, sike_derive_ss (OQS_KEM_sike_p434_keypair []).2
            (List.replicate 346 0)) ∧
      (sike_derive_ss (OQS_KEM_sike_p434_keypair []).2
          (List.replicate 346 0)).length = 16) :=
  ⟨by simp, decaps_always_succeeds [] (List.replicate 346 0) (by simp)⟩

/-! ## SIDH ephemeral key exchange (C1)

The key-exchange layer (`sidh.c`) is absent from `src/`; it is modelled
from the spec at the level the spec itself describes it (sections 3, 4.5,
6): a party's secret isogeny is determined by its kernel subgroup
`<P + sk*Q>` of the smooth torsion group; a public key is the triple of
images of the other party's fixed torsion-basis points under the quotient
by that kernel; the shared secret is "the invariant (j-invariant or curve
coefficient) of the curve reached by composing both parties' secret
isogenies", which is determined by the composite kernel subgroup of the
starting curve.  Curves reached from the starting curve are therefore
represented by kernel subgroups of the torsion group, points on them by
elements of the corresponding quotient group, and the shared invariant by
the composite kernel subgroup. -/

/-- The order of the smooth torsion subgroup used by SIDH/P434:
`2^216 * 3^137` (Alice's `2^e2` times Bob's `3^e3`). -/
def sidh_torsion : ℕ := 2 ^ 216 * 3 ^ 137

/-- A point of the rank-2 smooth torsion group
`E0[2^216 * 3^137] ≅ (ZMod (2^216 * 3^137))^2`, identified by its
coordinates with respect to a fixed basis. -/
abbrev SidhPoint : Type := ZMod sidh_torsion × ZMod sidh_torsion

/-- Modelled from the spec: the kernel point selected by a private scalar,
"a linear combination of two fixed public torsion-basis points"
(spec section 4.5): `P + sk * Q`. -/
def sidh_secret_kernel (P Q : SidhPoint) (sk : ℕ) : SidhPoint := P + sk • Q

/-- Modelled from the spec: the kernel subgroup of a party's secret
isogeny, the cyclic subgroup generated by its secret kernel point
(spec section 4.4: a degree-`k` isogeny "with that point's subgroup as
kernel"). The codomain curve of the secret isogeny is determined by this
subgroup. -/
def sidh_secret_curve (P Q : SidhPoint) (sk : ℕ) : AddSubgroup SidhPoint :=
  AddSubgroup.closure {sidh_secret_kernel P Q sk}

/-- Modelled from the spec:
`oqs_kem_sidh_p434_EphemeralKeyGeneration_A` (declared in `P434_api.h`,
body absent from `src/`): Alice's public key is the ordered triple of
images of Bob's fixed torsion-basis points `(PB, QB, RB)` under her
secret isogeny, i.e. under the quotient by her kernel subgroup
(spec section 3: "Public key: an ordered triple ... (images of three
fixed torsion-basis points under the secret isogeny)"). -/
def oqs_kem_sidh_p434_EphemeralKeyGeneration_A
    (PA QA PB QB RB : SidhPoint) (skA : ℕ) :
    (SidhPoint ⧸ sidh_secret_curve PA QA skA)
      × (SidhPoint ⧸ sidh_secret_curve PA QA skA)
      × (SidhPoint ⧸ sidh_secret_curve PA QA skA) :=
  (QuotientAddGroup.mk' _ PB, QuotientAddGroup.mk' _ QB,
    QuotientAddGroup.mk' _ RB)

/-- Modelled from the spec:
`oqs_kem_sidh_p434_EphemeralKeyGeneration_B`: Bob's public key, the
images of Alice's basis points `(PA, QA, RA)` under the quotient by his
kernel subgroup. -/
def oqs_kem_sidh_p434_EphemeralKeyGeneration_B
    (PB QB PA QA RA : SidhPoint) (skB : ℕ) :
    (SidhPoint ⧸ sidh_secret_curve PB QB skB)
      × (SidhPoint ⧸ sidh_secret_curve PB QB skB)
      × (SidhPoint ⧸ sidh_secret_curve PB QB skB) :=
  (QuotientAddGroup.mk' _ PA, QuotientAddGroup.mk' _ QA,
    QuotientAddGroup.mk' _ RA)

/-- Modelled from the spec:
`oqs_kem_sidh_p434_EphemeralSecretAgreement_A` (declared in `P434_api.h`,
body absent from `src/`): Alice repeats her walk on Bob's curve, using
the kernel point `pk.1 + skA * pk.2.1` formed from the transmitted images
of her basis points (spec section 4.5: "Shared-secret computation repeats
the identical walk using the other party's public key ... ending in a
single curve invariant as the shared value").  The resulting curve is the
quotient of Bob's curve by the cyclic subgroup generated by that kernel
point, and its invariant is determined by the composite kernel: the
preimage of that subgroup in the starting torsion group. -/
def oqs_kem_sidh_p434_EphemeralSecretAgreement_A {H : AddSubgroup SidhPoint}
    (skA : ℕ)
    (pk : (SidhPoint ⧸ H) × (SidhPoint ⧸ H) × (SidhPoint ⧸ H)) :
    AddSubgroup SidhPoint :=
  AddSubgroup.comap (QuotientAddGroup.mk' H)
    (AddSubgroup.closure {pk.1 + skA • pk.2.1})

/-- Modelled from the spec:
`oqs_kem_sidh_p434_EphemeralSecretAgreement_B`: Bob's side of the
shared-secret derivation, symmetric to Alice's. -/
def oqs_kem_sidh_p434_EphemeralSecretAgreement_B {H : AddSubgroup SidhPoint}
    (skB : ℕ)
    (pk : (SidhPoint ⧸ H) × (SidhPoint ⧸ H) × (SidhPoint ⧸ H)) :
    AddSubgroup SidhPoint :=
  AddSubgroup.comap (QuotientAddGroup.mk' H)
    (AddSubgroup.closure {pk.1 + skB • pk.2.1})

theorem sidh_agreement_side (P1 Q1 P2 Q2 : SidhPoint) (sk1 sk2 : ℕ) :
    AddSubgroup.comap (QuotientAddGroup.mk' (sidh_secret_curve P1 Q1 sk1))
      (AddSubgroup.closure
        {(QuotientAddGroup.mk' (sidh_secret_curve P1 Q1 sk1)) P2
          + sk2 • (QuotientAddGroup.mk' (sidh_secret_curve P1 Q1 sk1)) Q2})
      = sidh_secret_curve P2 Q2 sk2 ⊔ sidh_secret_curve P1 Q1 sk1 := by
  have hmap : (QuotientAddGroup.mk' (sidh_secret_curve P1 Q1 sk1)) P2
      + sk2 • (QuotientAddGroup.mk' (sidh_secret_curve P1 Q1 sk1)) Q2
      = (QuotientAddGroup.mk' (sidh_secret_curve P1 Q1 sk1))
          (sidh_secret_kernel P2 Q2 sk2) := by
    simp [sidh_secret_kernel]
  rw [hmap]
  have hcl : AddSubgroup.closure
      ({(QuotientAddGroup.mk' (sidh_secret_curve P1 Q1 sk1))
          (sidh_secret_kernel P2 Q2 sk2)}
        : Set (SidhPoint ⧸ sidh_secret_curve P1 Q1 sk1))
      = AddSubgroup.map (QuotientAddGroup.mk' (sidh_secret_curve P1 Q1 sk1))
          (AddSubgroup.closure {sidh_secret_kernel P2 Q2 sk2}) := by
    rw [AddMonoidHom.map_closure, Set.image_singleton]
  rw [hcl, AddSubgroup.comap_map_eq, QuotientAddGroup.ker_mk']
  rfl

/-- Claim C1: for every pair of independently generated key pairs over the
fixed public torsion-basis points, the shared-secret derivation of each
party applied to its own private scalar and the other party's public-key
triple yields the same value:
`EphemeralSecretAgreement_A(skA, pkB) = EphemeralSecretAgreement_B(skB, pkA)`
(both parties reach the curve with the same composite kernel, hence the
same invariant). -/
theorem sidh_p434_key_agreement (PA QA PB QB RA RB : SidhPoint)
    (skA skB : ℕ) :
    oqs_kem_sidh_p434_EphemeralSecretAgreement_A skA
        (oqs_kem_sidh_p434_EphemeralKeyGeneration_B PB QB PA QA RA skB)
      = oqs_kem_sidh_p434_EphemeralSecretAgreement_B skB
        (oqs_kem_sidh_p434_EphemeralKeyGeneration_A PA QA PB QB RB skA) := by
  unfold oqs_kem_sidh_p434_EphemeralSecretAgreement_A
    oqs_kem_sidh_p434_EphemeralSecretAgreement_B
    oqs_kem_sidh_p434_EphemeralKeyGeneration_A
    oqs_kem_sidh_p434_EphemeralKeyGeneration_B
  rw [sidh_agreement_side PB QB PA QA skB skA,
    sidh_agreement_side PA QA PB QB skA skB]
  exact sup_comm _ _
